import Mathlib

/- Verification of the minesweeper engine in src/main.rs: the grid
   representation, mine placement with incremental adjacency counts, the
   recursive reveal (flood fill), and the input validation helpers. -/

set_option linter.unusedVariables false

/-- Grid of cells, one list per row, matching the Box<[Box<[i8]>]> field of
struct MineField. Cell values are carried as Int; every value the program
stores lies in [-9, 127], inside the i8 range, so no wraparound is modelled. -/
abbrev Grid := List (List Int)

/-- Sentinel for a revealed mine (game over). -/
def REVEALED_MINE : Int := 9

/-- Sentinel for a hidden mine. -/
def UNREVEALED_MINE : Int := -9

/-- Sentinel for a revealed empty cell with no adjacent mines. -/
def REVEALED_EMPTY : Int := 127

/-- Sentinel for a hidden empty cell. -/
def UNREVEALED_EMPTY : Int := 0

/-- Maximum allowed board size, enforced by the input loop in main. -/
def MAX_SIZE : Nat := 99

/-- Read of self.field[y][x]; none when an index is out of range, which in the
source is an index panic. -/
def gget (g : Grid) (x y : Nat) : Option Int :=
  match g[y]? with
  | some row => row[x]?
  | none => none

/-- Write of self.field[y][x] = v; identity when out of range. Every call site
is guarded by a successful read or an in-bounds hypothesis, where this agrees
with the source. -/
def gset (g : Grid) (x y : Nat) (v : Int) : Grid :=
  match g[y]? with
  | some row => g.set y (row.set x v)
  | none => g

/-- Width as the source computes it: self.field[0].len(). -/
def gwidth (g : Grid) : Nat := (g.headD []).length

/-- Height as the source computes it: self.field.len(). -/
def gheight (g : Grid) : Nat := g.length

/-- Rectangular grid of the given dimensions. -/
def Rect (w h : Nat) (g : Grid) : Prop :=
  g.length = h ∧ ∀ row ∈ g, row.length = w

instance (w h : Nat) (g : Grid) : Decidable (Rect w h g) := by
  unfold Rect; infer_instance

/-- All in-bounds coordinates (x, y) of a w by h grid. -/
def coords (w h : Nat) : Finset (Nat × Nat) := Finset.range w ×ˢ Finset.range h

/-- Number of in-bounds cells satisfying P. -/
def countP2 (w h : Nat) (P : Nat × Nat → Prop) [DecidablePred P] : Nat :=
  ((coords w h).filter P).card

/-- Number of hidden-mine cells. -/
def countMines (w h : Nat) (g : Grid) : Nat :=
  countP2 w h fun q => gget g q.1 q.2 = some UNREVEALED_MINE

/-- Number of cells tagged as a mine, hidden or revealed. -/
def countMineTags (w h : Nat) (g : Grid) : Nat :=
  countP2 w h fun q =>
    gget g q.1 q.2 = some UNREVEALED_MINE ∨ gget g q.1 q.2 = some REVEALED_MINE

/-- Number of hidden empty (zero) cells; this is the measure that bounds the
depth of the reveal recursion. -/
def zeroCount (g : Grid) : Nat :=
  countP2 (gwidth g) (gheight g) fun q => gget g q.1 q.2 = some UNREVEALED_EMPTY

/-- Near a b x y: (a, b) lies in the 3 by 3 block centred at (x, y). In Nat
arithmetic the lower bound x - 1 saturates at 0 exactly like saturating_sub. -/
def Near (a b x y : Nat) : Prop :=
  x - 1 ≤ a ∧ a ≤ x + 1 ∧ y - 1 ≤ b ∧ b ≤ y + 1

instance (a b x y : Nat) : Decidable (Near a b x y) := by
  unfold Near; infer_instance

/-- Adjacent a b x y: (a, b) is one of the up to 8 grid neighbours of (x, y). -/
def Adjacent (a b x y : Nat) : Prop := ¬(a = x ∧ b = y) ∧ Near a b x y

instance (a b x y : Nat) : Decidable (Adjacent a b x y) := by
  unfold Adjacent; infer_instance

/-- True number of mines among the grid neighbours of (x, y), by brute-force
recomputation over the whole grid. -/
def adjMines (w h : Nat) (g : Grid) (x y : Nat) : Nat :=
  countP2 w h fun q => Adjacent q.1 q.2 x y ∧ gget g q.1 q.2 = some UNREVEALED_MINE

/-- Coordinates (yy, xx) scanned by the two nested neighbour loops shared by
fill and reveal_adjacent: yy from y - 1 (saturating) to min (y + 1) (h - 1),
and xx likewise with w. The pair order (row, column) matches the loop nesting
in the source. -/
def rectCoords (w h x y : Nat) : List (Nat × Nat) :=
  (List.range' (y - 1) (min (y + 1) (h - 1) + 1 - (y - 1))).product
    (List.range' (x - 1) (min (x + 1) (w - 1) + 1 - (x - 1)))

/-- Loop body of the neighbour update in fill: decrement the cell at
p = (yy, xx) unless it is a mine. -/
def decStep (g : Grid) (p : Nat × Nat) : Grid :=
  match gget g p.2 p.1 with
  | some v => if v = UNREVEALED_MINE then g else gset g p.2 p.1 (v - 1)
  | none => g

/-- The full neighbour update loop of fill. -/
def decMines (g : Grid) (ps : List (Nat × Nat)) : Grid := ps.foldl decStep g

/-- Mine placement step inside the loop of fill: mark (x, y) as a mine, then
decrement every non-mine cell in the clamped 3 by 3 neighbourhood. -/
def placeMineAt (w h : Nat) (g : Grid) (x y : Nat) : Grid :=
  decMines (gset g x y UNREVEALED_MINE) (rectCoords w h x y)

/-- MineField::zero — reset every cell to 0. -/
def zeroGrid (g : Grid) : Grid := g.map fun row => row.map fun _ => (0 : Int)

/-- Placement loop of MineField::fill over a stream cs of random draws (x, y):
while placed < mc, draws that hit an existing mine are skipped, other draws
place a mine. Returns the grid and the number of mines placed, which is mc
exactly when the stream sufficed for the loop to complete. -/
def fillGo (w h mc : Nat) : List (Nat × Nat) → Grid → Nat → Grid × Nat
  | [], g, placed => (g, placed)
  | (x, y) :: rest, g, placed =>
    if mc ≤ placed then (g, placed)
    else if gget g x y = some UNREVEALED_MINE then fillGo w h mc rest g placed
    else fillGo w h mc rest (placeMineAt w h g x y) (placed + 1)

/-- MineField::fill — zero the grid, then run the placement loop with the
dimensions read from the grid as the source does. -/
def fill (g : Grid) (mc : Nat) (cs : List (Nat × Nat)) : Grid × Nat :=
  fillGo (gwidth g) (gheight g) mc cs (zeroGrid g) 0

/-- Error raised by an out-of-range grid access (an index panic in the source). -/
inductive GridError where
  | OutOfBounds
deriving DecidableEq

instance {e a : Type} [DecidableEq e] [DecidableEq a] : DecidableEq (Except e a) := fun u v =>
  match u, v with
  | Except.ok x, Except.ok y => decidable_of_iff (x = y) (by simp)
  | Except.error s, Except.error t => decidable_of_iff (s = t) (by simp)
  | Except.ok _, Except.error _ => isFalse (by simp)
  | Except.error _, Except.ok _ => isFalse (by simp)

/-- Inner loop of reveal_adjacent over the scanned coordinates: skip the centre
cell, re-check the bounds, and recursively reveal, discarding the returned
flag, exactly as the source loop body does. -/
def revealGo (rev : Grid → Nat → Nat → Except GridError (Grid × Bool))
    (x y w h : Nat) : Grid → List (Nat × Nat) → Except GridError Grid
  | g, [] => Except.ok g
  | g, (dy, dx) :: rest =>
    if dx = x ∧ dy = y then revealGo rev x y w h g rest
    else if dx < w ∧ dy < h then
      match rev g dx dy with
      | Except.ok (g1, _) => revealGo rev x y w h g1 rest
      | Except.error e => Except.error e
    else revealGo rev x y w h g rest

/-- MineField::reveal_adjacent, parameterised by the recursive reveal: read the
width from row 0 (an index panic on an empty grid), the height, and scan the
clamped 3 by 3 neighbourhood. -/
def revealAdjacent (rev : Grid → Nat → Nat → Except GridError (Grid × Bool))
    (g : Grid) (x y : Nat) : Except GridError Grid :=
  match g[0]? with
  | some row0 => revealGo rev x y row0.length g.length g (rectCoords row0.length g.length x y)
  | none => Except.error GridError.OutOfBounds

/-- One step of MineField::reveal, given the recursive call for nested reveals:
hidden empty cell → mark revealed empty and flood the neighbours; hidden mine →
mark revealed mine and return true; any other value → store its absolute value. -/
def revealBody (rev : Grid → Nat → Nat → Except GridError (Grid × Bool))
    (g : Grid) (x y : Nat) : Except GridError (Grid × Bool) :=
  match gget g x y with
  | none => Except.error GridError.OutOfBounds
  | some c =>
    if c = UNREVEALED_EMPTY then
      match revealAdjacent rev (gset g x y REVEALED_EMPTY) x y with
      | Except.ok g2 => Except.ok (g2, false)
      | Except.error e => Except.error e
    else if c = UNREVEALED_MINE then Except.ok (gset g x y REVEALED_MINE, true)
    else Except.ok (gset g x y (c.natAbs : Int), false)

/-- Fuel-indexed reveal. The fuel only serves to bound the flood-fill depth of
the mutual recursion between reveal and reveal_adjacent; the fuel-independence
theorem below shows any fuel above zeroCount g gives the same result. -/
def revealF : Nat → Grid → Nat → Nat → Except GridError (Grid × Bool)
  | 0 => fun g _ _ => Except.ok (g, false)
  | f + 1 => revealBody (revealF f)

/-- MineField::reveal — revealF with enough fuel for the whole flood fill. -/
def reveal (g : Grid) (x y : Nat) : Except GridError (Grid × Bool) :=
  revealF (zeroCount g + 1) g x y

/-- Struct MineField from the source. -/
structure MineField where
  field : Grid
  mine_count : Nat
deriving DecidableEq

/-- MineField::new — height rows of width zeros ((0..height) mapped to
vec![0; width]); no validation of any kind is performed. -/
def MineField.new (width height mine_count : Nat) : MineField :=
  { field := List.replicate height (List.replicate width 0)
    mine_count := mine_count }

/-- State of the driving loop in main: playing, or game over after a mine was
revealed, at which point the loop breaks and never calls reveal again. -/
inductive GameState where
  | playing : Grid → GameState
  | over : Grid → GameState
deriving DecidableEq

/-- One iteration of the main loop on already validated coordinates: reveal,
and move to the terminal over state when reveal returns true. The over state is
absorbing. The error branch is unreachable for the validated in-bounds
coordinates main passes in. -/
def stepGame : GameState → Nat × Nat → GameState
  | GameState.playing g, p =>
    match reveal g p.1 p.2 with
    | Except.ok (g1, true) => GameState.over g1
    | Except.ok (g1, false) => GameState.playing g1
    | Except.error _ => GameState.playing g
  | GameState.over g, _ => GameState.over g

/-- Sequence of reveal calls applied to a grid, describing the grids reachable
from the main loop; an error leaves the grid unchanged and cannot occur for
in-bounds moves. -/
def playMoves : Grid → List (Nat × Nat) → Grid
  | g, [] => g
  | g, (x, y) :: ms =>
    match reveal g x y with
    | Except.ok (g1, _) => playMoves g1 ms
    | Except.error _ => playMoves g ms

/-- Acceptance condition of get_input_vec2: both numbers positive and within
the given maxima; anything else is re-prompted and never returned. -/
def acceptedVec2 (x y maxX maxY : Nat) : Prop := 0 < x ∧ x ≤ maxX ∧ 0 < y ∧ y ≤ maxY

instance (x y maxX maxY : Nat) : Decidable (acceptedVec2 x y maxX maxY) := by
  unfold acceptedVec2; infer_instance

/-- Rust fn get_valid_size. -/
def get_valid_size (width height : Nat) : Nat × Nat :=
  (if 6 < width then width else 9, if 6 < height then height else 9)

/-- Rust usize::clamp; none models the documented panic when lo exceeds hi. -/
def rustClamp (v lo hi : Nat) : Option Nat :=
  if lo ≤ hi then some (min (max v lo) hi) else none

/-- Rust fn get_valid_mine_count. -/
def get_valid_mine_count (width height mine_count : Nat) : Option Nat :=
  rustClamp mine_count 2 (width * height / 10)

/-- Value set of the sentinel encoding: hidden mine, revealed mine, revealed
empty, and adjacency counts of magnitude at most 8 (negative while hidden,
positive once revealed, zero for a hidden empty cell). -/
def validCell (v : Int) : Prop :=
  v = UNREVEALED_MINE ∨ v = REVEALED_MINE ∨ v = REVEALED_EMPTY ∨ (-8 ≤ v ∧ v ≤ 8)

instance (v : Int) : Decidable (validCell v) := by
  unfold validCell; infer_instance

/-- Every in-bounds cell carries a value in the sentinel encoding. -/
def AllValid (w h : Nat) (g : Grid) : Prop :=
  ∀ x y, x < w → y < h → ∃ v, gget g x y = some v ∧ validCell v

/-- Invariant of the placement loop: every in-bounds cell is a hidden mine or
stores minus the exact number of adjacent mines. -/
def FillInv (w h : Nat) (g : Grid) : Prop :=
  ∀ x y, x < w → y < h → ∃ v, gget g x y = some v ∧
    (v = UNREVEALED_MINE ∨ v = -(adjMines w h g x y : Int))

/- Basic lemmas about the grid accessors. -/

theorem list_set_same {α : Type} : ∀ (l : List α) (n : Nat) (a : α),
    l[n]? = some a → l.set n a = l
  | [], n, a, h => by simp at h
  | b :: t, 0, a, h => by
    simp only [List.getElem?_cons_zero, Option.some.injEq] at h
    simp [h]
  | b :: t, n + 1, a, h => by
    simp only [List.getElem?_cons_succ] at h
    simp [list_set_same t n a h]

theorem gget_bounds {g : Grid} {x y : Nat} {v : Int} (h : gget g x y = some v) :
    ∃ row, g[y]? = some row ∧ row[x]? = some v := by
  unfold gget at h
  cases hg : g[y]? with
  | none => rw [hg] at h; exact absurd h (by simp)
  | some row => rw [hg] at h; exact ⟨row, rfl, h⟩

theorem gget_gset_self {g : Grid} {x y : Nat} {c : Int} (h : gget g x y = some c) (v : Int) :
    gget (gset g x y v) x y = some v := by
  obtain ⟨row, hrow, hx⟩ := gget_bounds h
  obtain ⟨hy, -⟩ := List.getElem?_eq_some.mp hrow
  obtain ⟨hxl, -⟩ := List.getElem?_eq_some.mp hx
  unfold gset gget
  simp only [hrow]
  rw [List.getElem?_set_eq_of_lt _ (by simpa using hy)]
  simp only [Option.some.injEq]  -- reduce outer match on some
  rw [List.getElem?_set_eq_of_lt _ hxl]

theorem gget_gset_ne {g : Grid} {x y : Nat} (v : Int) {a b : Nat} (hne : ¬(a = x ∧ b = y)) :
    gget (gset g x y v) a b = gget g a b := by
  unfold gset
  cases hgy : g[y]? with
  | none => rfl
  | some row =>
    obtain ⟨hy, -⟩ := List.getElem?_eq_some.mp hgy
    unfold gget
    by_cases hby : b = y
    · subst hby
      have hax : x ≠ a := fun hh => hne ⟨hh.symm, rfl⟩
      rw [List.getElem?_set_eq_of_lt _ (by simpa using hy), hgy]
      simp only
      rw [List.getElem?_set_ne hax]
    · rw [List.getElem?_set_ne (fun hh => hby hh.symm)]

theorem gset_id {g : Grid} {x y : Nat} {c : Int} (h : gget g x y = some c) :
    gset g x y c = g := by
  obtain ⟨row, hrow, hx⟩ := gget_bounds h
  unfold gset
  simp only [hrow]
  rw [list_set_same row x c hx, list_set_same g y row hrow]

theorem rect_gset {w h : Nat} {g : Grid} (hg : Rect w h g) (x y : Nat) (v : Int) :
    Rect w h (gset g x y v) := by
  unfold gset
  cases hgy : g[y]? with
  | none => exact hg
  | some row =>
    obtain ⟨hl, hrow⟩ := hg
    refine ⟨by simp [hl], fun r hr => ?_⟩
    rcases List.mem_or_eq_of_mem_set hr with h1 | h1
    · exact hrow r h1
    · subst h1
      rw [List.length_set]
      exact hrow row (List.getElem?_mem hgy)

theorem rect_gheight {w h : Nat} {g : Grid} (hg : Rect w h g) : gheight g = h := hg.1

theorem rect_gwidth {w h : Nat} {g : Grid} (hg : Rect w h g) (hh : 0 < h) : gwidth g = w := by
  obtain ⟨hl, hrow⟩ := hg
  cases g with
  | nil => simp at hl; omega
  | cons r t => exact hrow r (by simp)

theorem rect_row {w h : Nat} {g : Grid} (hg : Rect w h g) {y : Nat} (hy : y < h) :
    ∃ row, g[y]? = some row ∧ row.length = w := by
  obtain ⟨hl, hrow⟩ := hg
  have hy2 : y < g.length := by omega
  exact ⟨g[y], List.getElem?_eq_getElem hy2, hrow _ (List.getElem_mem hy2)⟩

theorem rect_gget_some {w h : Nat} {g : Grid} (hg : Rect w h g) {x y : Nat}
    (hx : x < w) (hy : y < h) : ∃ v, gget g x y = some v := by
  obtain ⟨row, hrow, hlen⟩ := rect_row hg hy
  have hx2 : x < row.length := by omega
  refine ⟨row[x], ?_⟩
  unfold gget
  simp only [hrow]
  rw [List.getElem?_eq_getElem hx2]

theorem rect_gget_none {w h : Nat} {g : Grid} (hg : Rect w h g) {x y : Nat}
    (hxy : ¬(x < w ∧ y < h)) : gget g x y = none := by
  unfold gget
  by_cases hy : y < h
  · obtain ⟨row, hrow, hlen⟩ := rect_row hg hy
    simp only [hrow]
    have hx : ¬ x < w := fun hh => hxy ⟨hh, hy⟩
    exact List.getElem?_eq_none (by omega)
  · have hl : g.length ≤ y := by rw [hg.1]; omega
    rw [List.getElem?_eq_none hl]

theorem gheight_gset (g : Grid) (x y : Nat) (v : Int) :
    gheight (gset g x y v) = gheight g := by
  unfold gset gheight
  cases g[y]? <;> simp

theorem gwidth_gset (g : Grid) (x y : Nat) (v : Int) :
    gwidth (gset g x y v) = gwidth g := by
  unfold gset
  cases hgy : g[y]? with
  | none => rfl
  | some row =>
    cases g with
    | nil => simp at hgy
    | cons r t =>
      cases y with
      | zero =>
        simp only [List.getElem?_cons_zero, Option.some.injEq] at hgy
        subst hgy
        simp [gwidth, List.set]
      | succ n => simp [gwidth, List.set]

theorem gget_zeroGrid (g : Grid) (x y : Nat) :
    gget (zeroGrid g) x y = (gget g x y).map fun _ => (0 : Int) := by
  unfold gget zeroGrid
  rw [List.getElem?_map]
  cases g[y]? with
  | none => rfl
  | some row =>
    simp only [Option.map_some']
    rw [List.getElem?_map]

theorem rect_zeroGrid {w h : Nat} {g : Grid} (hg : Rect w h g) : Rect w h (zeroGrid g) := by
  obtain ⟨hl, hrow⟩ := hg
  unfold zeroGrid
  refine ⟨by simpa using hl, fun r hr => ?_⟩
  obtain ⟨row, hrow2, hmap⟩ := List.mem_map.mp hr
  subst hmap
  simpa using hrow row hrow2

theorem gwidth_zeroGrid (g : Grid) : gwidth (zeroGrid g) = gwidth g := by
  unfold gwidth zeroGrid
  cases g <;> simp

theorem gheight_zeroGrid (g : Grid) : gheight (zeroGrid g) = gheight g := by
  unfold gheight zeroGrid
  simp

/- Counting lemmas over the coordinate rectangle. -/

theorem mem_coords {w h : Nat} {q : Nat × Nat} : q ∈ coords w h ↔ q.1 < w ∧ q.2 < h := by
  unfold coords
  rw [Finset.mem_product]
  simp

theorem countP2_update {w h : Nat} (P Q : Nat × Nat → Prop) [DecidablePred P] [DecidablePred Q]
    (a : Nat × Nat) (ha : a ∈ coords w h)
    (hoff : ∀ b ∈ coords w h, b ≠ a → (P b ↔ Q b)) :
    countP2 w h Q + (if P a then 1 else 0) = countP2 w h P + (if Q a then 1 else 0) := by
  unfold countP2
  rw [Finset.card_filter, Finset.card_filter]
  rw [← Finset.add_sum_erase _ _ ha, ← Finset.add_sum_erase _ _ ha]
  have hsum : (∑ b ∈ (coords w h).erase a, if Q b then 1 else 0) =
      ∑ b ∈ (coords w h).erase a, if P b then 1 else 0 := by
    refine Finset.sum_congr rfl fun b hb => ?_
    have hb1 := Finset.mem_of_mem_erase hb
    have hb2 := Finset.ne_of_mem_erase hb
    simp only [hoff b hb1 hb2]
  rw [hsum]
  ring

theorem countP2_congr {w h : Nat} (P Q : Nat × Nat → Prop) [DecidablePred P] [DecidablePred Q]
    (hpq : ∀ b ∈ coords w h, (P b ↔ Q b)) : countP2 w h P = countP2 w h Q := by
  unfold countP2
  congr 1
  exact Finset.filter_congr hpq

theorem ne_pair_of_ne {b : Nat × Nat} {x y : Nat} (hne : b ≠ (x, y)) :
    ¬(b.1 = x ∧ b.2 = y) := by
  intro hcontra
  apply hne
  obtain ⟨h1, h2⟩ := hcontra
  cases b
  simp_all

theorem countP2_gset_eq {w h : Nat} {g : Grid} {x y : Nat} {c : Int}
    (hx : x < w) (hy : y < h) (hc : gget g x y = some c) (v k : Int) :
    countP2 w h (fun q => gget (gset g x y v) q.1 q.2 = some k) + (if c = k then 1 else 0) =
      countP2 w h (fun q => gget g q.1 q.2 = some k) + (if v = k then 1 else 0) := by
  have hupd := countP2_update (w := w) (h := h)
    (fun q => gget g q.1 q.2 = some k)
    (fun q => gget (gset g x y v) q.1 q.2 = some k)
    (x, y) (mem_coords.mpr ⟨hx, hy⟩)
    (fun b hb hne => by simp only [gget_gset_ne v (ne_pair_of_ne hne)])
  have e1 : (if gget g x y = some k then 1 else 0) = (if c = k then 1 else 0) := by
    simp [hc]
  have e2 : (if gget (gset g x y v) x y = some k then 1 else 0) = (if v = k then 1 else 0) := by
    simp [gget_gset_self hc v]
  simpa only [e1, e2] using hupd

/- Lemmas about the scanned neighbourhood rectangle. -/

theorem mem_rectCoords {w h x y : Nat} (hx : x < w) (hy : y < h) (p : Nat × Nat) :
    p ∈ rectCoords w h x y ↔ Near p.2 p.1 x y ∧ p.2 < w ∧ p.1 < h := by
  unfold rectCoords
  obtain ⟨dy, dx⟩ := p
  rw [List.pair_mem_product, List.mem_range'_1, List.mem_range'_1]
  unfold Near
  simp only
  omega

theorem nodup_rectCoords (w h x y : Nat) : (rectCoords w h x y).Nodup := by
  unfold rectCoords
  exact List.Nodup.product (List.nodup_range' _ _ 1 Nat.one_pos)
    (List.nodup_range' _ _ 1 Nat.one_pos)

/- Characterisation of the neighbour decrement loop of fill. -/

theorem gget_decStep_ne {g : Grid} {p : Nat × Nat} {a b : Nat} (hne : ¬(a = p.2 ∧ b = p.1)) :
    gget (decStep g p) a b = gget g a b := by
  unfold decStep
  cases hv : gget g p.2 p.1 with
  | none => rfl
  | some v =>
    by_cases hm : v = UNREVEALED_MINE
    · simp [hm]
    · simp [hm, gget_gset_ne (v - 1) hne]

theorem gget_decStep_self {g : Grid} {p : Nat × Nat} {v : Int} (hv : gget g p.2 p.1 = some v) :
    gget (decStep g p) p.2 p.1 = some (if v = UNREVEALED_MINE then v else v - 1) := by
  unfold decStep
  rw [hv]
  by_cases hm : v = UNREVEALED_MINE
  · simp [hm, hv]
  · simp [hm, gget_gset_self hv]

theorem rect_decStep {w h : Nat} {g : Grid} (hg : Rect w h g) (p : Nat × Nat) :
    Rect w h (decStep g p) := by
  unfold decStep
  cases gget g p.2 p.1 with
  | none => exact hg
  | some v =>
    by_cases hm : v = UNREVEALED_MINE
    · simpa [hm] using hg
    · simpa [hm] using rect_gset hg p.2 p.1 (v - 1)

theorem rect_decMines {w h : Nat} : ∀ (ps : List (Nat × Nat)) (g : Grid), Rect w h g →
    Rect w h (decMines g ps)
  | [], g, hg => hg
  | p :: rest, g, hg => by
    have ih := rect_decMines rest (decStep g p) (rect_decStep hg p)
    simpa [decMines, List.foldl_cons] using ih

theorem gget_decMines : ∀ (ps : List (Nat × Nat)) (g : Grid) (a b : Nat) (v : Int),
    ps.Nodup → gget g a b = some v →
    gget (decMines g ps) a b =
      some (if (b, a) ∈ ps ∧ v ≠ UNREVEALED_MINE then v - 1 else v)
  | [], g, a, b, v, hnd, hv => by simpa [decMines] using hv
  | p :: rest, g, a, b, v, hnd, hv => by
    have hnd2 := List.nodup_cons.mp hnd
    by_cases hp : (b, a) = p
    · subst hp
      have hstep := gget_decStep_self (p := (b, a)) (by simpa using hv)
      have ih := gget_decMines rest (decStep g (b, a)) a b
        (if v = UNREVEALED_MINE then v else v - 1) hnd2.2 (by simpa using hstep)
      rw [show decMines g ((b, a) :: rest) = decMines (decStep g (b, a)) rest by
        simp [decMines, List.foldl_cons]]
      rw [ih]
      by_cases hm : v = UNREVEALED_MINE
      · simp [hm, hnd2.1]
      · simp [hm, hnd2.1]
    · have hne : ¬(a = p.2 ∧ b = p.1) := by
        intro hcontra
        apply hp
        obtain ⟨h1, h2⟩ := hcontra
        obtain ⟨p1, p2⟩ := p
        simp_all
      have hstep : gget (decStep g p) a b = gget g a b := gget_decStep_ne hne
      have ih := gget_decMines rest (decStep g p) a b v hnd2.2 (hstep.trans hv)
      rw [show decMines g (p :: rest) = decMines (decStep g p) rest by
        simp [decMines, List.foldl_cons]]
      rw [ih]
      have : ((b, a) ∈ p :: rest) ↔ ((b, a) ∈ rest) := by
        simp [List.mem_cons, hp]
      simp only [this]

/- Characterisation of one mine placement. -/

theorem rect_placeMineAt {w h : Nat} {g : Grid} (hg : Rect w h g) (x y : Nat) :
    Rect w h (placeMineAt w h g x y) :=
  rect_decMines _ _ (rect_gset hg x y _)

theorem gget_placeMineAt_self {w h : Nat} {g : Grid} {x y : Nat} {c : Int}
    (hx : x < w) (hy : y < h) (hc : gget g x y = some c) :
    gget (placeMineAt w h g x y) x y = some UNREVEALED_MINE := by
  unfold placeMineAt
  have h1 : gget (gset g x y UNREVEALED_MINE) x y = some UNREVEALED_MINE :=
    gget_gset_self hc _
  rw [gget_decMines _ _ _ _ UNREVEALED_MINE (nodup_rectCoords w h x y) h1]
  simp

theorem gget_placeMineAt_ne {w h : Nat} {g : Grid} {x y a b : Nat} {v : Int}
    (hx : x < w) (hy : y < h) (hne : ¬(a = x ∧ b = y)) (hv : gget g a b = some v) :
    gget (placeMineAt w h g x y) a b =
      some (if Near a b x y ∧ a < w ∧ b < h ∧ v ≠ UNREVEALED_MINE then v - 1 else v) := by
  unfold placeMineAt
  have h1 : gget (gset g x y UNREVEALED_MINE) a b = gget g a b := gget_gset_ne _ hne
  rw [gget_decMines _ _ _ _ v (nodup_rectCoords w h x y) (h1.trans hv)]
  have hmem : ((b, a) ∈ rectCoords w h x y) ↔ (Near a b x y ∧ a < w ∧ b < h) := by
    rw [mem_rectCoords hx hy (b, a)]
  by_cases hcond : Near a b x y ∧ a < w ∧ b < h ∧ v ≠ UNREVEALED_MINE
  · rw [if_pos ⟨hmem.mpr ⟨hcond.1, hcond.2.1, hcond.2.2.1⟩, hcond.2.2.2⟩, if_pos hcond]
  · rw [if_neg, if_neg hcond]
    intro hcontra
    obtain ⟨hm, hv9⟩ := hcontra
    obtain ⟨hn, hw, hhh⟩ := hmem.mp hm
    exact hcond ⟨hn, hw, hhh, hv9⟩

/- Bounds on the number of neighbours: a cell has at most 8 of them. -/

theorem near_symm {a b x y : Nat} : Near a b x y ↔ Near x y a b := by
  unfold Near
  omega

theorem card_three_le (a b c : Nat) : ({a, b, c} : Finset Nat).card ≤ 3 := by
  apply le_trans (Finset.card_insert_le _ _)
  have h2 : ({b, c} : Finset Nat).card ≤ 2 := by
    apply le_trans (Finset.card_insert_le _ _)
    simp
  omega

theorem adjSet_subset (w h x y : Nat) :
    (coords w h).filter (fun q => Adjacent q.1 q.2 x y) ⊆
      ((({x - 1, x, x + 1} : Finset Nat) ×ˢ ({y - 1, y, y + 1} : Finset Nat)).erase (x, y)) := by
  intro q hq
  rw [Finset.mem_filter] at hq
  obtain ⟨hin, hne, hnear⟩ := hq
  rw [Finset.mem_erase]
  constructor
  · intro heq
    subst heq
    exact hne ⟨rfl, rfl⟩
  · rw [Finset.mem_product]
    unfold Near at hnear
    constructor <;> · simp only [Finset.mem_insert, Finset.mem_singleton]; omega

theorem card_adjacent_le_eight (w h x y : Nat) :
    countP2 w h (fun q => Adjacent q.1 q.2 x y) ≤ 8 := by
  unfold countP2
  have hcard := Finset.card_le_card (adjSet_subset w h x y)
  have hmem : (x, y) ∈ (({x - 1, x, x + 1} : Finset Nat) ×ˢ ({y - 1, y, y + 1} : Finset Nat)) := by
    rw [Finset.mem_product]
    simp
  have herase := Finset.card_erase_of_mem hmem
  have hprod : ((({x - 1, x, x + 1} : Finset Nat) ×ˢ ({y - 1, y, y + 1} : Finset Nat))).card ≤ 9 := by
    rw [Finset.card_product]
    have h1 := card_three_le (x - 1) x (x + 1)
    have h2 := card_three_le (y - 1) y (y + 1)
    exact Nat.mul_le_mul h1 h2
  omega

theorem adjMines_le_eight (w h : Nat) (g : Grid) (x y : Nat) : adjMines w h g x y ≤ 8 := by
  apply le_trans _ (card_adjacent_le_eight w h x y)
  unfold adjMines countP2
  apply Finset.card_le_card
  intro q hq
  rw [Finset.mem_filter] at hq
  rw [Finset.mem_filter]
  exact ⟨hq.1, hq.2.1⟩

theorem adjMines_lt_eight {w h : Nat} {g : Grid} {x y a b : Nat}
    (hx : x < w) (hy : y < h) (hadj : Adjacent x y a b)
    (hnm : gget g x y ≠ some UNREVEALED_MINE) : adjMines w h g a b < 8 := by
  unfold adjMines countP2
  have hsub : (coords w h).filter
      (fun q => Adjacent q.1 q.2 a b ∧ gget g q.1 q.2 = some UNREVEALED_MINE) ⊆
      ((coords w h).filter (fun q => Adjacent q.1 q.2 a b)).erase (x, y) := by
    intro q hq
    rw [Finset.mem_filter] at hq
    rw [Finset.mem_erase, Finset.mem_filter]
    refine ⟨?_, hq.1, hq.2.1⟩
    intro heq
    subst heq
    exact hnm hq.2.2
  have hmem : (x, y) ∈ (coords w h).filter (fun q => Adjacent q.1 q.2 a b) := by
    rw [Finset.mem_filter]
    exact ⟨mem_coords.mpr ⟨hx, hy⟩, hadj⟩
  have h1 := Finset.card_le_card hsub
  have h2 := Finset.card_erase_of_mem hmem
  have h3 := card_adjacent_le_eight w h a b
  unfold countP2 at h3
  have h4 : 0 < ((coords w h).filter (fun q => Adjacent q.1 q.2 a b)).card :=
    Finset.card_pos.mpr ⟨(x, y), hmem⟩
  omega

/- How one mine placement transforms the mine set, the counts, and the
   invariant. -/

theorem mineAt_placeMineAt {w h : Nat} {g : Grid} {x y : Nat}
    (hg : Rect w h g) (hx : x < w) (hy : y < h)
    (hnm : gget g x y ≠ some UNREVEALED_MINE) (hinv : FillInv w h g)
    {a b : Nat} (ha : a < w) (hb : b < h) :
    (gget (placeMineAt w h g x y) a b = some UNREVEALED_MINE) ↔
      (gget g a b = some UNREVEALED_MINE ∨ (a = x ∧ b = y)) := by
  by_cases hab : a = x ∧ b = y
  · obtain ⟨h1, h2⟩ := hab
    subst h1
    subst h2
    obtain ⟨c, hc⟩ := rect_gget_some hg hx hy
    rw [gget_placeMineAt_self hx hy hc]
    simp
  · obtain ⟨v, hv, hd⟩ := hinv a b ha hb
    rw [gget_placeMineAt_ne hx hy hab hv]
    by_cases hcond : Near a b x y ∧ a < w ∧ b < h ∧ v ≠ UNREVEALED_MINE
    · rw [if_pos hcond]
      simp only [Option.some.injEq, hv]
      constructor
      · intro hv9
        exfalso
        have hv8 : v = -8 := by
          unfold UNREVEALED_MINE at hv9
          omega
        rcases hd with hD | hD
        · exact hcond.2.2.2 hD
        · have hadj8 : adjMines w h g a b = 8 := by
            rw [hv8] at hD
            omega
          have hxyadj : Adjacent x y a b :=
            ⟨fun hc2 => hab ⟨hc2.1.symm, hc2.2.symm⟩, near_symm.mp hcond.1⟩
          have hlt := adjMines_lt_eight hx hy hxyadj hnm
          omega
      · intro hor
        rcases hor with hm | hcc
        · exact absurd hm hcond.2.2.2
        · exact absurd hcc hab
    · rw [if_neg hcond]
      rw [hv]
      simp only [Option.some.injEq]
      constructor
      · intro h9
        left
        exact h9
      · intro hor
        rcases hor with hm | hcc
        · exact hm
        · exact absurd hcc hab

theorem countMines_placeMineAt {w h : Nat} {g : Grid} {x y : Nat}
    (hg : Rect w h g) (hx : x < w) (hy : y < h)
    (hnm : gget g x y ≠ some UNREVEALED_MINE) (hinv : FillInv w h g) :
    countMines w h (placeMineAt w h g x y) = countMines w h g + 1 := by
  obtain ⟨c, hc⟩ := rect_gget_some hg hx hy
  have hupd := countP2_update (w := w) (h := h)
    (fun q => gget g q.1 q.2 = some UNREVEALED_MINE)
    (fun q => gget (placeMineAt w h g x y) q.1 q.2 = some UNREVEALED_MINE)
    (x, y) (mem_coords.mpr ⟨hx, hy⟩)
    (fun b hb hne => by
      obtain ⟨hb1, hb2⟩ := mem_coords.mp hb
      simp only
      rw [mineAt_placeMineAt hg hx hy hnm hinv hb1 hb2]
      have hne2 := ne_pair_of_ne hne
      constructor
      · exact Or.inl
      · intro hor
        rcases hor with hm | hcc
        · exact hm
        · exact absurd hcc hne2)
  have e1 : (if gget g x y = some UNREVEALED_MINE then 1 else 0) = 0 := by
    simp [hnm]
  have e2 : (if gget (placeMineAt w h g x y) x y = some UNREVEALED_MINE then 1 else 0) = 1 := by
    simp [gget_placeMineAt_self hx hy hc]
  unfold countMines
  simp only [e1, e2] at hupd
  omega

theorem adjMines_placeMineAt {w h : Nat} {g : Grid} {x y : Nat}
    (hg : Rect w h g) (hx : x < w) (hy : y < h)
    (hnm : gget g x y ≠ some UNREVEALED_MINE) (hinv : FillInv w h g)
    {a b : Nat} (ha : a < w) (hb : b < h) :
    adjMines w h (placeMineAt w h g x y) a b =
      adjMines w h g a b + (if Adjacent x y a b then 1 else 0) := by
  have hupd := countP2_update (w := w) (h := h)
    (fun q => Adjacent q.1 q.2 a b ∧ gget g q.1 q.2 = some UNREVEALED_MINE)
    (fun q => Adjacent q.1 q.2 a b ∧ gget (placeMineAt w h g x y) q.1 q.2 = some UNREVEALED_MINE)
    (x, y) (mem_coords.mpr ⟨hx, hy⟩)
    (fun q hq hne => by
      obtain ⟨hq1, hq2⟩ := mem_coords.mp hq
      simp only
      rw [mineAt_placeMineAt hg hx hy hnm hinv hq1 hq2]
      have hne2 := ne_pair_of_ne hne
      constructor
      · intro hc2
        exact ⟨hc2.1, Or.inl hc2.2⟩
      · intro hc2
        rcases hc2.2 with hm | hcc
        · exact ⟨hc2.1, hm⟩
        · exact absurd hcc hne2)
  obtain ⟨c, hc⟩ := rect_gget_some hg hx hy
  have e1 : (if (Adjacent x y a b ∧ gget g x y = some UNREVEALED_MINE) then 1 else 0) = 0 := by
    simp [hnm]
  have e2 : (if (Adjacent x y a b ∧
      gget (placeMineAt w h g x y) x y = some UNREVEALED_MINE) then 1 else 0) =
      (if Adjacent x y a b then 1 else 0) := by
    simp [gget_placeMineAt_self hx hy hc]
  unfold adjMines
  simp only [e1, e2] at hupd
  omega

theorem fillInv_placeMineAt {w h : Nat} {g : Grid} {x y : Nat}
    (hg : Rect w h g) (hx : x < w) (hy : y < h)
    (hnm : gget g x y ≠ some UNREVEALED_MINE) (hinv : FillInv w h g) :
    FillInv w h (placeMineAt w h g x y) := by
  intro a b ha hb
  by_cases hab : a = x ∧ b = y
  · obtain ⟨h1, h2⟩ := hab
    subst h1
    subst h2
    obtain ⟨c, hc⟩ := rect_gget_some hg hx hy
    exact ⟨UNREVEALED_MINE, gget_placeMineAt_self hx hy hc, Or.inl rfl⟩
  · obtain ⟨v, hv, hd⟩ := hinv a b ha hb
    have hadjnew := adjMines_placeMineAt hg hx hy hnm hinv ha hb
    rcases hd with h9 | hcount
    · rw [gget_placeMineAt_ne hx hy hab hv]
      rw [if_neg (fun hcon => hcon.2.2.2 h9)]
      exact ⟨v, rfl, Or.inl h9⟩
    · have hvne : v ≠ UNREVEALED_MINE := by
        have hle := adjMines_le_eight w h g a b
        unfold UNREVEALED_MINE
        omega
      rw [gget_placeMineAt_ne hx hy hab hv]
      by_cases hnear : Near a b x y
      · rw [if_pos ⟨hnear, ha, hb, hvne⟩]
        refine ⟨v - 1, rfl, Or.inr ?_⟩
        have hadjT : Adjacent x y a b :=
          ⟨fun hc2 => hab ⟨hc2.1.symm, hc2.2.symm⟩, near_symm.mp hnear⟩
        rw [hadjnew, if_pos hadjT]
        push_cast
        omega
      · rw [if_neg (fun hcon => hnear hcon.1)]
        refine ⟨v, rfl, Or.inr ?_⟩
        have hadjF : ¬ Adjacent x y a b := fun hc2 => hnear (near_symm.mpr hc2.2)
        rw [hadjnew, if_neg hadjF]
        push_cast
        omega

/- The placement loop maintains the invariant, the rectangle shape, and the
   count of placed mines. -/

theorem fillGo_inv {w h : Nat} : ∀ (mc : Nat) (cs : List (Nat × Nat)) (g : Grid) (placed : Nat),
    Rect w h g → (∀ p ∈ cs, p.1 < w ∧ p.2 < h) → FillInv w h g →
    countMines w h g = placed →
    Rect w h (fillGo w h mc cs g placed).1 ∧ FillInv w h (fillGo w h mc cs g placed).1 ∧
      countMines w h (fillGo w h mc cs g placed).1 = (fillGo w h mc cs g placed).2
  | mc, [], g, placed, hg, hcs, hinv, hcnt => ⟨hg, hinv, by simpa [fillGo] using hcnt⟩
  | mc, (x, y) :: rest, g, placed, hg, hcs, hinv, hcnt => by
    have hxy := hcs (x, y) (by simp)
    by_cases hstop : mc ≤ placed
    · simpa [fillGo, hstop] using ⟨hg, hinv, hcnt⟩
    · by_cases hmine : gget g x y = some UNREVEALED_MINE
      · have ih := fillGo_inv mc rest g placed hg
          (fun p hp => hcs p (by simp [hp])) hinv hcnt
        simpa [fillGo, hstop, hmine] using ih
      · have hg2 := rect_placeMineAt hg x y
        have hinv2 := fillInv_placeMineAt hg hxy.1 hxy.2 hmine hinv
        have hcnt2 : countMines w h (placeMineAt w h g x y) = placed + 1 := by
          rw [countMines_placeMineAt hg hxy.1 hxy.2 hmine hinv, hcnt]
        have ih := fillGo_inv mc rest (placeMineAt w h g x y) (placed + 1) hg2
          (fun p hp => hcs p (by simp [hp])) hinv2 hcnt2
        simpa [fillGo, hstop, hmine] using ih

/- The zeroed grid satisfies the invariant with no mines. -/

theorem no_mines_zeroGrid (g : Grid) {a b : Nat} :
    gget (zeroGrid g) a b ≠ some UNREVEALED_MINE := by
  rw [gget_zeroGrid]
  cases gget g a b with
  | none => simp
  | some v =>
    simp only [Option.map_some']
    intro hcon
    have := Option.some.inj hcon
    unfold UNREVEALED_MINE at this
    omega

theorem adjMines_zeroGrid (w h : Nat) (g : Grid) (x y : Nat) :
    adjMines w h (zeroGrid g) x y = 0 := by
  unfold adjMines countP2
  rw [Finset.card_eq_zero]
  rw [Finset.filter_eq_empty_iff]
  intro q hq
  intro hcon
  exact no_mines_zeroGrid g hcon.2

theorem countMines_zeroGrid (w h : Nat) (g : Grid) :
    countMines w h (zeroGrid g) = 0 := by
  unfold countMines countP2
  rw [Finset.card_eq_zero]
  rw [Finset.filter_eq_empty_iff]
  intro q hq
  exact no_mines_zeroGrid g

theorem fillInv_zeroGrid {w h : Nat} {g : Grid} (hg : Rect w h g) :
    FillInv w h (zeroGrid g) := by
  intro a b ha hb
  obtain ⟨v, hv⟩ := rect_gget_some (rect_zeroGrid hg) ha hb
  refine ⟨v, hv, Or.inr ?_⟩
  have hv0 : v = 0 := by
    rw [gget_zeroGrid] at hv
    cases hvg : gget g a b with
    | none => rw [hvg] at hv; simp at hv
    | some u => rw [hvg] at hv; simp at hv; omega
  rw [hv0, adjMines_zeroGrid]
  simp

theorem countMineTags_eq_countMines {w h : Nat} {g : Grid} (hinv : FillInv w h g) :
    countMineTags w h g = countMines w h g := by
  unfold countMineTags countMines
  apply countP2_congr
  intro b hb
  obtain ⟨hb1, hb2⟩ := mem_coords.mp hb
  obtain ⟨v, hv, hd⟩ := hinv b.1 b.2 hb1 hb2
  rw [hv]
  simp only [Option.some.injEq]
  have h99 : v = REVEALED_MINE → v = UNREVEALED_MINE := by
    intro h9
    exfalso
    rcases hd with h2 | h2
    · rw [h2] at h9
      exact absurd h9 (by decide)
    · rw [h2] at h9
      unfold REVEALED_MINE at h9
      omega
  constructor
  · intro hor
    rcases hor with h1 | h1
    · exact h1
    · exact h99 h1
  · exact Or.inl

/-- Claim C1: for every valid (width, height, mine_count) with
2 ≤ mine_count ≤ width * height / 10, whenever the placement loop of fill
completes (the stream cs of in-bounds random draws sufficed to place
mine_count mines, which the loop signals by returning the count mc), the
number of cells tagged as mines, hidden or revealed, equals mine_count
exactly. -/
theorem fill_mine_count (w h mc : Nat) (g0 : Grid) (cs : List (Nat × Nat)) (gr : Grid)
    (hval : 2 ≤ mc ∧ mc ≤ w * h / 10) (hg : Rect w h g0)
    (hcs : ∀ p ∈ cs, p.1 < w ∧ p.2 < h)
    (hfill : fill g0 mc cs = (gr, mc)) :
    countMineTags w h gr = mc := by
  have h20 : 2 ≤ w * h / 10 := le_trans hval.1 hval.2
  have hh : 0 < h := by
    rcases Nat.eq_zero_or_pos h with h0 | hp
    · subst h0; simp at h20
    · exact hp
  unfold fill at hfill
  rw [rect_gwidth hg hh, rect_gheight hg] at hfill
  have hres := fillGo_inv mc cs (zeroGrid g0) 0 (rect_zeroGrid hg) hcs
    (fillInv_zeroGrid hg) (countMines_zeroGrid w h g0)
  rw [hfill] at hres
  obtain ⟨hrect, hinv, hcount⟩ := hres
  rw [countMineTags_eq_countMines hinv]
  simpa using hcount

/-- Claim C2: after fill completes, every non-mine cell stores a value whose
magnitude equals the true number of its grid-adjacent mine cells, and this
holds for every placement order, since the stream cs of in-bounds draws is
universally quantified. -/
theorem fill_adjacent_counts (w h mc : Nat) (g0 : Grid) (cs : List (Nat × Nat)) (gr : Grid)
    (hval : 2 ≤ mc ∧ mc ≤ w * h / 10) (hg : Rect w h g0)
    (hcs : ∀ p ∈ cs, p.1 < w ∧ p.2 < h)
    (hfill : fill g0 mc cs = (gr, mc)) :
    ∀ x y, x < w → y < h → gget gr x y ≠ some UNREVEALED_MINE →
      ∃ v, gget gr x y = some v ∧ v.natAbs = adjMines w h gr x y := by
  have h20 : 2 ≤ w * h / 10 := le_trans hval.1 hval.2
  have hh : 0 < h := by
    rcases Nat.eq_zero_or_pos h with h0 | hp
    · subst h0; simp at h20
    · exact hp
  unfold fill at hfill
  rw [rect_gwidth hg hh, rect_gheight hg] at hfill
  have hres := fillGo_inv mc cs (zeroGrid g0) 0 (rect_zeroGrid hg) hcs
    (fillInv_zeroGrid hg) (countMines_zeroGrid w h g0)
  rw [hfill] at hres
  obtain ⟨hrect, hinv, hcount⟩ := hres
  intro x y hx hy hnm
  obtain ⟨v, hv, hd⟩ := hinv x y hx hy
  rcases hd with h9 | hcnt
  · exfalso
    apply hnm
    rw [hv, h9]
  · refine ⟨v, hv, ?_⟩
    rw [hcnt]
    simp

/- Helper lemmas for the reveal proofs. -/

theorem gget_lt {w h : Nat} {g : Grid} (hg : Rect w h g) {x y : Nat} {v : Int}
    (hv : gget g x y = some v) : x < w ∧ y < h := by
  by_contra hcon
  rw [rect_gget_none hg hcon] at hv
  simp at hv

theorem zeroCount_gset {w h : Nat} {g : Grid} {x y : Nat} {c : Int}
    (hg : Rect w h g) (hx : x < w) (hy : y < h) (hc : gget g x y = some c) (v : Int) :
    zeroCount (gset g x y v) + (if c = UNREVEALED_EMPTY then 1 else 0) =
      zeroCount g + (if v = UNREVEALED_EMPTY then 1 else 0) := by
  unfold zeroCount
  have hh : 0 < h := Nat.lt_of_le_of_lt (Nat.zero_le y) hy
  rw [rect_gwidth hg hh, rect_gheight hg, rect_gwidth (rect_gset hg x y v) hh,
    rect_gheight (rect_gset hg x y v)]
  exact countP2_gset_eq hx hy hc v UNREVEALED_EMPTY

theorem zeroCount_pos {w h : Nat} {g : Grid} (hg : Rect w h g) {x y : Nat}
    (hx : x < w) (hy : y < h) (hc : gget g x y = some UNREVEALED_EMPTY) :
    0 < zeroCount g := by
  unfold zeroCount
  have hh : 0 < h := Nat.lt_of_le_of_lt (Nat.zero_le y) hy
  rw [rect_gwidth hg hh, rect_gheight hg]
  unfold countP2
  apply Finset.card_pos.mpr
  exact ⟨(x, y), Finset.mem_filter.mpr ⟨mem_coords.mpr ⟨hx, hy⟩, hc⟩⟩

theorem allValid_gset {w h : Nat} {g : Grid} {x y : Nat} {c v : Int}
    (hav : AllValid w h g) (hc : gget g x y = some c) (hv : validCell v) :
    AllValid w h (gset g x y v) := by
  intro a b ha hb
  by_cases hab : a = x ∧ b = y
  · obtain ⟨h1, h2⟩ := hab
    subst h1
    subst h2
    exact ⟨v, gget_gset_self hc v, hv⟩
  · obtain ⟨u, hu, hval⟩ := hav a b ha hb
    exact ⟨u, by rw [gget_gset_ne v hab]; exact hu, hval⟩

theorem validCell_natAbs {c : Int} (hc : validCell c) : validCell (c.natAbs : Int) := by
  unfold validCell UNREVEALED_MINE REVEALED_MINE REVEALED_EMPTY at *
  omega

theorem validCell_revealedMine : validCell REVEALED_MINE := by
  unfold validCell
  right
  left
  rfl

theorem validCell_revealedEmpty : validCell REVEALED_EMPTY := by
  unfold validCell
  right
  right
  left
  rfl

/- Preservation through the reveal recursion: the rectangle shape, the count
   of hidden empty cells (never increasing), and the sentinel encoding. -/

theorem revealGo_preserve {w h : Nat} (f : Nat)
    (hf : ∀ (g : Grid) (a b : Nat), Rect w h g → ∀ g2 r, revealF f g a b = Except.ok (g2, r) →
      Rect w h g2 ∧ zeroCount g2 ≤ zeroCount g ∧ (AllValid w h g → AllValid w h g2)) :
    ∀ (ps : List (Nat × Nat)) (xx yy : Nat) (g : Grid), Rect w h g →
      ∀ g2, revealGo (revealF f) xx yy w h g ps = Except.ok g2 →
        Rect w h g2 ∧ zeroCount g2 ≤ zeroCount g ∧ (AllValid w h g → AllValid w h g2)
  | [], xx, yy, g, hg, g2, hok => by
    simp only [revealGo, Except.ok.injEq] at hok
    subst hok
    exact ⟨hg, le_refl _, fun hv => hv⟩
  | (dy, dx) :: rest, xx, yy, g, hg, g2, hok => by
    simp only [revealGo] at hok
    by_cases hskip : dx = xx ∧ dy = yy
    · rw [if_pos hskip] at hok
      exact revealGo_preserve f hf rest xx yy g hg g2 hok
    · rw [if_neg hskip] at hok
      by_cases hbnd : dx < w ∧ dy < h
      · rw [if_pos hbnd] at hok
        cases hrev : revealF f g dx dy with
        | ok p =>
          rw [hrev] at hok
          obtain ⟨g1, r⟩ := p
          simp only at hok
          have h1 := hf g dx dy hg g1 r hrev
          have h2 := revealGo_preserve f hf rest xx yy g1 h1.1 g2 hok
          exact ⟨h2.1, le_trans h2.2.1 h1.2.1, fun hv => h2.2.2 (h1.2.2 hv)⟩
        | error e =>
          rw [hrev] at hok
          simp at hok
      · rw [if_neg hbnd] at hok
        exact revealGo_preserve f hf rest xx yy g hg g2 hok

theorem revealF_preserve {w h : Nat} : ∀ (f : Nat) (g : Grid) (a b : Nat), Rect w h g →
    ∀ g2 r, revealF f g a b = Except.ok (g2, r) →
      Rect w h g2 ∧ zeroCount g2 ≤ zeroCount g ∧ (AllValid w h g → AllValid w h g2)
  | 0, g, a, b, hg, g2, r, hok => by
    simp only [revealF, Except.ok.injEq, Prod.mk.injEq] at hok
    obtain ⟨h1, h2⟩ := hok
    subst h1
    exact ⟨hg, le_refl _, fun hv => hv⟩
  | f + 1, g, a, b, hg, g2, r, hok => by
    have hok2 : revealBody (revealF f) g a b = Except.ok (g2, r) := hok
    unfold revealBody at hok2
    cases hc : gget g a b with
    | none =>
      rw [hc] at hok2
      simp at hok2
    | some c =>
      rw [hc] at hok2
      simp only at hok2
      obtain ⟨ha, hb⟩ := gget_lt hg hc
      have hh : 0 < h := Nat.lt_of_le_of_lt (Nat.zero_le b) hb
      by_cases h0 : c = UNREVEALED_EMPTY
      · rw [if_pos h0] at hok2
        cases hadj : revealAdjacent (revealF f) (gset g a b REVEALED_EMPTY) a b with
        | ok g3 =>
          rw [hadj] at hok2
          simp only [Except.ok.injEq, Prod.mk.injEq] at hok2
          obtain ⟨hg3, hr⟩ := hok2
          subst hg3
          have hg1 : Rect w h (gset g a b REVEALED_EMPTY) := rect_gset hg a b _
          have hzc1 : zeroCount (gset g a b REVEALED_EMPTY) + 1 = zeroCount g := by
            have hsum := zeroCount_gset hg ha hb hc REVEALED_EMPTY
            rw [if_pos h0, if_neg (by decide : ¬(REVEALED_EMPTY = UNREVEALED_EMPTY))] at hsum
            omega
          obtain ⟨row0, hrow0, hlen0⟩ := rect_row hg1 hh
          unfold revealAdjacent at hadj
          rw [hrow0] at hadj
          simp only at hadj
          rw [hlen0, hg1.1] at hadj
          have hres := revealGo_preserve f
            (fun g5 a3 b3 hg5 g4 r4 hok4 => revealF_preserve f g5 a3 b3 hg5 g4 r4 hok4)
            _ a b _ hg1 g3 hadj
          refine ⟨hres.1, by omega, ?_⟩
          intro hav
          exact hres.2.2 (allValid_gset hav hc validCell_revealedEmpty)
        | error e =>
          rw [hadj] at hok2
          simp at hok2
      · rw [if_neg h0] at hok2
        by_cases h9 : c = UNREVEALED_MINE
        · rw [if_pos h9] at hok2
          simp only [Except.ok.injEq, Prod.mk.injEq] at hok2
          obtain ⟨hg2e, hr⟩ := hok2
          subst hg2e
          have hzc : zeroCount (gset g a b REVEALED_MINE) = zeroCount g := by
            have hsum := zeroCount_gset hg ha hb hc REVEALED_MINE
            rw [if_neg h0, if_neg (by decide : ¬(REVEALED_MINE = UNREVEALED_EMPTY))] at hsum
            omega
          refine ⟨rect_gset hg a b _, by omega, ?_⟩
          intro hav
          exact allValid_gset hav hc validCell_revealedMine
        · rw [if_neg h9] at hok2
          simp only [Except.ok.injEq, Prod.mk.injEq] at hok2
          obtain ⟨hg2e, hr⟩ := hok2
          subst hg2e
          have hvne : ¬((c.natAbs : Int) = UNREVEALED_EMPTY) := by
            simp only [UNREVEALED_EMPTY] at h0 ⊢
            omega
          have hzc : zeroCount (gset g a b (c.natAbs : Int)) = zeroCount g := by
            have hsum := zeroCount_gset hg ha hb hc (c.natAbs : Int)
            rw [if_neg h0, if_neg hvne] at hsum
            omega
          refine ⟨rect_gset hg a b _, by omega, ?_⟩
          intro hav
          obtain ⟨u, hu, hval⟩ := hav a b ha hb
          rw [hc] at hu
          have hu2 : u = c := (Option.some.inj hu).symm
          subst hu2
          exact allValid_gset hav hc (validCell_natAbs hval)

/- In-bounds reveals never fail: every access of the flood fill stays inside
   the grid. -/

theorem revealGo_ok {w h : Nat} (f : Nat)
    (hf : ∀ (g : Grid) (a b : Nat), Rect w h g → a < w → b < h →
      ∃ g2 r, revealF f g a b = Except.ok (g2, r)) :
    ∀ (ps : List (Nat × Nat)) (xx yy : Nat) (g : Grid), Rect w h g →
      ∃ g2, revealGo (revealF f) xx yy w h g ps = Except.ok g2
  | [], xx, yy, g, hg => ⟨g, by simp [revealGo]⟩
  | (dy, dx) :: rest, xx, yy, g, hg => by
    by_cases hskip : dx = xx ∧ dy = yy
    · obtain ⟨g2, hok⟩ := revealGo_ok f hf rest xx yy g hg
      exact ⟨g2, by simp only [revealGo]; rw [if_pos hskip]; exact hok⟩
    · by_cases hbnd : dx < w ∧ dy < h
      · obtain ⟨g1, r, hrev⟩ := hf g dx dy hg hbnd.1 hbnd.2
        have hg1 := (revealF_preserve f g dx dy hg g1 r hrev).1
        obtain ⟨g2, hok⟩ := revealGo_ok f hf rest xx yy g1 hg1
        refine ⟨g2, ?_⟩
        simp only [revealGo]
        rw [if_neg hskip, if_pos hbnd, hrev]
        exact hok
      · obtain ⟨g2, hok⟩ := revealGo_ok f hf rest xx yy g hg
        refine ⟨g2, ?_⟩
        simp only [revealGo]
        rw [if_neg hskip, if_neg hbnd]
        exact hok

theorem revealF_ok {w h : Nat} : ∀ (f : Nat) (g : Grid) (x y : Nat), Rect w h g →
    x < w → y < h → ∃ g2 r, revealF f g x y = Except.ok (g2, r)
  | 0, g, x, y, hg, hx, hy => ⟨g, false, rfl⟩
  | f + 1, g, x, y, hg, hx, hy => by
    obtain ⟨c, hc⟩ := rect_gget_some hg hx hy
    have hh : 0 < h := Nat.lt_of_le_of_lt (Nat.zero_le y) hy
    by_cases h0 : c = UNREVEALED_EMPTY
    · have hg1 : Rect w h (gset g x y REVEALED_EMPTY) := rect_gset hg x y _
      obtain ⟨row0, hrow0, hlen0⟩ := rect_row hg1 hh
      obtain ⟨g3, hadj⟩ := revealGo_ok f
        (fun g5 a b hg5 ha hb => revealF_ok f g5 a b hg5 ha hb)
        (rectCoords w h x y) x y _ hg1
      refine ⟨g3, false, ?_⟩
      show revealBody (revealF f) g x y = _
      unfold revealBody
      rw [hc]
      simp only
      rw [if_pos h0]
      unfold revealAdjacent
      rw [hrow0]
      simp only
      rw [hlen0, hg1.1, hadj]
    · by_cases h9 : c = UNREVEALED_MINE
      · refine ⟨gset g x y REVEALED_MINE, true, ?_⟩
        show revealBody (revealF f) g x y = _
        unfold revealBody
        rw [hc]
        simp only
        rw [if_neg h0, if_pos h9]
      · refine ⟨gset g x y (c.natAbs : Int), false, ?_⟩
        show revealBody (revealF f) g x y = _
        unfold revealBody
        rw [hc]
        simp only
        rw [if_neg h0, if_neg h9]

/- Fuel independence: above the zeroCount measure, the fuelled reveal no
   longer depends on the fuel, which is exactly termination of the mutual
   recursion between reveal and reveal_adjacent. -/

theorem revealGo_stab {w h : Nat} (f f2 : Nat)
    (hIH : ∀ (g : Grid) (a b : Nat), Rect w h g → a < w → b < h → zeroCount g < f →
      revealF f g a b = revealF f2 g a b) :
    ∀ (ps : List (Nat × Nat)) (xx yy : Nat) (g : Grid), Rect w h g → zeroCount g < f →
      revealGo (revealF f) xx yy w h g ps = revealGo (revealF f2) xx yy w h g ps
  | [], xx, yy, g, hg, hzc => by simp [revealGo]
  | (dy, dx) :: rest, xx, yy, g, hg, hzc => by
    simp only [revealGo]
    by_cases hskip : dx = xx ∧ dy = yy
    · rw [if_pos hskip, if_pos hskip]
      exact revealGo_stab f f2 hIH rest xx yy g hg hzc
    · rw [if_neg hskip, if_neg hskip]
      by_cases hbnd : dx < w ∧ dy < h
      · rw [if_pos hbnd, if_pos hbnd]
        have heq := hIH g dx dy hg hbnd.1 hbnd.2 hzc
        rw [← heq]
        cases hrev : revealF f g dx dy with
        | ok p =>
          obtain ⟨g1, r⟩ := p
          simp only
          have h1 := revealF_preserve f g dx dy hg g1 r hrev
          exact revealGo_stab f f2 hIH rest xx yy g1 h1.1 (lt_of_le_of_lt h1.2.1 hzc)
        | error e => simp only
      · rw [if_neg hbnd, if_neg hbnd]
        exact revealGo_stab f f2 hIH rest xx yy g hg hzc

theorem revealF_stab {w h : Nat} : ∀ (f : Nat) (g : Grid) (x y : Nat) (f2 : Nat), Rect w h g →
    x < w → y < h → zeroCount g < f → f ≤ f2 → revealF f g x y = revealF f2 g x y
  | 0, g, x, y, f2, hg, hx, hy, hzc, hle => by omega
  | f + 1, g, x, y, f2, hg, hx, hy, hzc, hle => by
    obtain ⟨f2p, rfl⟩ : ∃ k, f2 = k + 1 := ⟨f2 - 1, by omega⟩
    show revealBody (revealF f) g x y = revealBody (revealF f2p) g x y
    unfold revealBody
    cases hc : gget g x y with
    | none => rfl
    | some c =>
      simp only
      by_cases h0 : c = UNREVEALED_EMPTY
      · rw [if_pos h0, if_pos h0]
        have hg1 : Rect w h (gset g x y REVEALED_EMPTY) := rect_gset hg x y _
        have hh : 0 < h := Nat.lt_of_le_of_lt (Nat.zero_le y) hy
        obtain ⟨row0, hrow0, hlen0⟩ := rect_row hg1 hh
        have hzc1 : zeroCount (gset g x y REVEALED_EMPTY) + 1 = zeroCount g := by
          have hsum := zeroCount_gset hg hx hy hc REVEALED_EMPTY
          rw [if_pos h0, if_neg (by decide : ¬(REVEALED_EMPTY = UNREVEALED_EMPTY))] at hsum
          omega
        have hzg : 0 < zeroCount g := zeroCount_pos hg hx hy (h0 ▸ hc)
        have hadj : revealAdjacent (revealF f) (gset g x y REVEALED_EMPTY) x y =
            revealAdjacent (revealF f2p) (gset g x y REVEALED_EMPTY) x y := by
          unfold revealAdjacent
          rw [hrow0]
          simp only
          rw [hlen0, hg1.1]
          exact revealGo_stab f f2p
            (fun g5 a b hg5 ha hb hzc5 =>
              revealF_stab f g5 a b f2p hg5 ha hb hzc5 (by omega))
            _ x y _ hg1 (by omega)
        rw [hadj]
      · rw [if_neg h0, if_neg h0]

/-- Claim C3: reveal terminates for every grid and in-bounds coordinate — the
mutual recursion between reveal and reveal_adjacent cannot cycle, because each
revealed cell leaves the hidden-empty state before its neighbours are visited
and never re-triggers the flood fill. Formally, the fuelled recursion gives
the same answer for every fuel above zeroCount g, and reveal computes that
stable answer. -/
theorem reveal_fuel_independent (w h f1 f2 : Nat) (g : Grid) (x y : Nat)
    (hg : Rect w h g) (hx : x < w) (hy : y < h)
    (h1 : zeroCount g < f1) (h2 : zeroCount g < f2) :
    revealF f1 g x y = revealF f2 g x y ∧ revealF f1 g x y = reveal g x y := by
  have e1 : revealF (zeroCount g + 1) g x y = revealF f1 g x y :=
    revealF_stab _ g x y f1 hg hx hy (by omega) (by omega)
  have e2 : revealF (zeroCount g + 1) g x y = revealF f2 g x y :=
    revealF_stab _ g x y f2 hg hx hy (by omega) (by omega)
  constructor
  · exact e1.symm.trans e2
  · unfold reveal
    exact e1.symm

/- A cell holding a positive value is never changed by any reveal: every write
   of the recursion targets a cell currently holding 0, the mine value, or
   rewrites a cell with its own absolute value. -/

theorem revealGo_pos (f : Nat)
    (hf : ∀ (g : Grid) (a b : Nat) (g2 : Grid) (r : Bool),
      revealF f g a b = Except.ok (g2, r) →
      ∀ x y c, gget g x y = some c → 0 < c → gget g2 x y = some c) :
    ∀ (ps : List (Nat × Nat)) (xx yy w h : Nat) (g g2 : Grid),
      revealGo (revealF f) xx yy w h g ps = Except.ok g2 →
      ∀ x y c, gget g x y = some c → 0 < c → gget g2 x y = some c
  | [], xx, yy, w, h, g, g2, hok, x, y, c, hc, hpos => by
    simp only [revealGo, Except.ok.injEq] at hok
    subst hok
    exact hc
  | (dy, dx) :: rest, xx, yy, w, h, g, g2, hok, x, y, c, hc, hpos => by
    simp only [revealGo] at hok
    by_cases hskip : dx = xx ∧ dy = yy
    · rw [if_pos hskip] at hok
      exact revealGo_pos f hf rest xx yy w h g g2 hok x y c hc hpos
    · rw [if_neg hskip] at hok
      by_cases hbnd : dx < w ∧ dy < h
      · rw [if_pos hbnd] at hok
        cases hrev : revealF f g dx dy with
        | ok p =>
          rw [hrev] at hok
          obtain ⟨g1, r⟩ := p
          simp only at hok
          have h1 := hf g dx dy g1 r hrev x y c hc hpos
          exact revealGo_pos f hf rest xx yy w h g1 g2 hok x y c h1 hpos
        | error e =>
          rw [hrev] at hok
          simp at hok
      · rw [if_neg hbnd] at hok
        exact revealGo_pos f hf rest xx yy w h g g2 hok x y c hc hpos

theorem revealF_pos : ∀ (f : Nat) (g : Grid) (a b : Nat) (g2 : Grid) (r : Bool),
    revealF f g a b = Except.ok (g2, r) →
    ∀ x y c, gget g x y = some c → 0 < c → gget g2 x y = some c
  | 0, g, a, b, g2, r, hok, x, y, c, hc, hpos => by
    simp only [revealF, Except.ok.injEq, Prod.mk.injEq] at hok
    obtain ⟨h1, h2⟩ := hok
    subst h1
    exact hc
  | f + 1, g, a, b, g2, r, hok, x, y, c, hc, hpos => by
    have hok2 : revealBody (revealF f) g a b = Except.ok (g2, r) := hok
    unfold revealBody at hok2
    cases hcc : gget g a b with
    | none =>
      rw [hcc] at hok2
      simp at hok2
    | some c2 =>
      rw [hcc] at hok2
      simp only at hok2
      by_cases h0 : c2 = UNREVEALED_EMPTY
      · rw [if_pos h0] at hok2
        cases hadj : revealAdjacent (revealF f) (gset g a b REVEALED_EMPTY) a b with
        | ok g3 =>
          rw [hadj] at hok2
          simp only [Except.ok.injEq, Prod.mk.injEq] at hok2
          obtain ⟨hg3, hr⟩ := hok2
          subst hg3
          have hxy : ¬(x = a ∧ y = b) := by
            intro hcon
            obtain ⟨h1, h2⟩ := hcon
            subst h1
            subst h2
            rw [hc] at hcc
            have hce := Option.some.inj hcc
            rw [h0] at hce
            simp only [UNREVEALED_EMPTY] at hce
            omega
          have hc1 : gget (gset g a b REVEALED_EMPTY) x y = some c := by
            rw [gget_gset_ne _ hxy]
            exact hc
          unfold revealAdjacent at hadj
          cases hrow : (gset g a b REVEALED_EMPTY)[0]? with
          | none =>
            rw [hrow] at hadj
            simp at hadj
          | some row0 =>
            rw [hrow] at hadj
            simp only at hadj
            exact revealGo_pos f
              (fun g5 a5 b5 g6 r6 hok6 => revealF_pos f g5 a5 b5 g6 r6 hok6)
              _ a b _ _ _ g3 hadj x y c hc1 hpos
        | error e =>
          rw [hadj] at hok2
          simp at hok2
      · rw [if_neg h0] at hok2
        by_cases h9 : c2 = UNREVEALED_MINE
        · rw [if_pos h9] at hok2
          simp only [Except.ok.injEq, Prod.mk.injEq] at hok2
          obtain ⟨hg2e, hr⟩ := hok2
          subst hg2e
          have hxy : ¬(x = a ∧ y = b) := by
            intro hcon
            obtain ⟨h1, h2⟩ := hcon
            subst h1
            subst h2
            rw [hc] at hcc
            have hce := Option.some.inj hcc
            rw [h9] at hce
            simp only [UNREVEALED_MINE] at hce
            omega
          rw [gget_gset_ne _ hxy]
          exact hc
        · rw [if_neg h9] at hok2
          simp only [Except.ok.injEq, Prod.mk.injEq] at hok2
          obtain ⟨hg2e, hr⟩ := hok2
          subst hg2e
          by_cases hxy : x = a ∧ y = b
          · obtain ⟨h1, h2⟩ := hxy
            subst h1
            subst h2
            rw [hc] at hcc
            have hceq := Option.some.inj hcc
            rw [← hceq]
            rw [gget_gset_self hc _]
            have habs : ((c.natAbs : Int)) = c := by omega
            rw [habs]
          · rw [gget_gset_ne _ hxy]
            exact hc

/-- Claim C5: reveal is idempotent — whenever a reveal succeeds, revealing the
same coordinate again returns the continue flag and leaves the grid exactly as
after the first call; and a reveal of a cell that is already in a revealed
state (any positive value: a revealed number, the revealed mine, or the
revealed empty marker) is a no-op on the grid, returns continue, and does not
recurse into the neighbours. -/
theorem reveal_idempotent (g : Grid) (x y : Nat) :
    (∀ g1 b, reveal g x y = Except.ok (g1, b) → reveal g1 x y = Except.ok (g1, false)) ∧
    (∀ c, gget g x y = some c → 0 < c → reveal g x y = Except.ok (g, false)) := by
  have noop : ∀ (g2 : Grid) (c : Int), gget g2 x y = some c → 0 < c →
      reveal g2 x y = Except.ok (g2, false) := by
    intro g2 c hc hpos
    show revealBody (revealF (zeroCount g2)) g2 x y = _
    unfold revealBody
    rw [hc]
    simp only
    have h0 : ¬ c = UNREVEALED_EMPTY := by
      simp only [UNREVEALED_EMPTY]
      omega
    have h9 : ¬ c = UNREVEALED_MINE := by
      simp only [UNREVEALED_MINE]
      omega
    rw [if_neg h0, if_neg h9]
    have habs : ((c.natAbs : Int)) = c := by omega
    rw [habs, gset_id hc]
  constructor
  · intro g1 b hok
    have hpos1 : ∃ c, gget g1 x y = some c ∧ 0 < c := by
      have hok2 : revealBody (revealF (zeroCount g)) g x y = Except.ok (g1, b) := hok
      unfold revealBody at hok2
      cases hc : gget g x y with
      | none =>
        rw [hc] at hok2
        simp at hok2
      | some c =>
        rw [hc] at hok2
        simp only at hok2
        by_cases h0 : c = UNREVEALED_EMPTY
        · rw [if_pos h0] at hok2
          cases hadj : revealAdjacent (revealF (zeroCount g)) (gset g x y REVEALED_EMPTY) x y with
          | ok g3 =>
            rw [hadj] at hok2
            simp only [Except.ok.injEq, Prod.mk.injEq] at hok2
            obtain ⟨hg3, hr⟩ := hok2
            subst hg3
            have hc1 : gget (gset g x y REVEALED_EMPTY) x y = some REVEALED_EMPTY :=
              gget_gset_self hc _
            unfold revealAdjacent at hadj
            cases hrow : (gset g x y REVEALED_EMPTY)[0]? with
            | none =>
              rw [hrow] at hadj
              simp at hadj
            | some row0 =>
              rw [hrow] at hadj
              simp only at hadj
              refine ⟨REVEALED_EMPTY, ?_, by decide⟩
              exact revealGo_pos _
                (fun g5 a5 b5 g6 r6 hok6 => revealF_pos _ g5 a5 b5 g6 r6 hok6)
                _ x y _ _ _ g3 hadj x y REVEALED_EMPTY hc1 (by decide)
          | error e =>
            rw [hadj] at hok2
            simp at hok2
        · rw [if_neg h0] at hok2
          by_cases h9 : c = UNREVEALED_MINE
          · rw [if_pos h9] at hok2
            simp only [Except.ok.injEq, Prod.mk.injEq] at hok2
            obtain ⟨hg1e, hr⟩ := hok2
            subst hg1e
            exact ⟨REVEALED_MINE, gget_gset_self hc _, by decide⟩
          · rw [if_neg h9] at hok2
            simp only [Except.ok.injEq, Prod.mk.injEq] at hok2
            obtain ⟨hg1e, hr⟩ := hok2
            subst hg1e
            refine ⟨(c.natAbs : Int), gget_gset_self hc _, ?_⟩
            have hcne : ¬ c = 0 := by simpa [UNREVEALED_EMPTY] using h0
            omega
    obtain ⟨c, hc1, hcpos⟩ := hpos1
    exact noop g1 c hc1 hcpos
  · intro c hc hpos
    exact noop g c hc hpos

/-- Claim C4: reveal on a hidden mine returns the game-over signal and turns
exactly that cell into the revealed mine; the driving loop then enters the
terminal over state, which is absorbing — no further step changes the state or
the grid, and there is no transition out of over. -/
theorem reveal_mine_over (g : Grid) (x y : Nat)
    (hmine : gget g x y = some UNREVEALED_MINE) :
    reveal g x y = Except.ok (gset g x y REVEALED_MINE, true) ∧
    stepGame (GameState.playing g) (x, y) = GameState.over (gset g x y REVEALED_MINE) ∧
    (∀ (g2 : Grid) (p : Nat × Nat), stepGame (GameState.over g2) p = GameState.over g2) := by
  have hrev : reveal g x y = Except.ok (gset g x y REVEALED_MINE, true) := by
    show revealBody (revealF (zeroCount g)) g x y = _
    unfold revealBody
    rw [hmine]
    simp only
    rw [if_neg (by decide : ¬(UNREVEALED_MINE = UNREVEALED_EMPTY))]
    simp
  refine ⟨hrev, ?_, fun g2 p => rfl⟩
  simp only [stepGame]
  rw [hrev]

/-- Claim C9: every grid access performed during reveal and its recursion
stays inside [0, w) by [0, h): from an in-bounds coordinate the whole flood
fill succeeds, because reveal_adjacent only recurses into in-bounds neighbour
coordinates (the saturating lower bounds and clamped upper bounds cannot leave
the grid); and an access with an out-of-bounds coordinate fails with
OutOfBounds rather than silently clamping or wrapping. -/
theorem reveal_bounds (w h : Nat) (g : Grid) (x y : Nat) (hg : Rect w h g) :
    (x < w → y < h → ∃ g2 r, reveal g x y = Except.ok (g2, r) ∧ Rect w h g2) ∧
    (¬(x < w ∧ y < h) → reveal g x y = Except.error GridError.OutOfBounds) := by
  constructor
  · intro hx hy
    obtain ⟨g2, r, hok⟩ := revealF_ok (zeroCount g + 1) g x y hg hx hy
    exact ⟨g2, r, hok, (revealF_preserve _ g x y hg g2 r hok).1⟩
  · intro hxy
    show revealBody (revealF (zeroCount g)) g x y = _
    unfold revealBody
    rw [rect_gget_none hg hxy]

theorem allValid_of_fillInv {w h : Nat} {g : Grid} (hinv : FillInv w h g) :
    AllValid w h g := by
  intro x y hx hy
  obtain ⟨v, hv, hd⟩ := hinv x y hx hy
  refine ⟨v, hv, ?_⟩
  rcases hd with h9 | hc
  · rw [h9]
    unfold validCell
    left
    rfl
  · have hle := adjMines_le_eight w h g x y
    unfold validCell UNREVEALED_MINE REVEALED_MINE REVEALED_EMPTY
    right
    right
    right
    constructor <;> omega

theorem playMoves_valid {w h : Nat} : ∀ (ms : List (Nat × Nat)) (g : Grid), Rect w h g →
    AllValid w h g → Rect w h (playMoves g ms) ∧ AllValid w h (playMoves g ms)
  | [], g, hg, hav => ⟨hg, hav⟩
  | (x, y) :: ms, g, hg, hav => by
    simp only [playMoves]
    cases hrev : reveal g x y with
    | ok p =>
      obtain ⟨g1, r⟩ := p
      simp only
      have hp := revealF_preserve (zeroCount g + 1) g x y hg g1 r hrev
      exact playMoves_valid ms g1 hp.1 (hp.2.2 hav)
    | error e =>
      simp only
      exact playMoves_valid ms g hg hav

/-- Claim C10: the sentinel encoding is unambiguous on every reachable state —
after fill completes and any sequence of in-bounds reveals is applied, every
in-bounds cell holds a value in the set {-9, 9, 127} or in [-8, 8] (negative
hidden counts, zero for hidden empty, positive revealed counts); in
particular, a non-mine cell can never reach the hidden-mine sentinel -9
through adjacency decrements, because a cell has at most 8 neighbours. -/
theorem cell_encoding_valid (w h mc : Nat) (g0 gr : Grid) (cs ms : List (Nat × Nat))
    (hw : 0 < w) (hh : 0 < h) (hg : Rect w h g0)
    (hcs : ∀ p ∈ cs, p.1 < w ∧ p.2 < h) (hms : ∀ p ∈ ms, p.1 < w ∧ p.2 < h)
    (hfill : fill g0 mc cs = (gr, mc)) :
    ∀ x y, x < w → y < h → ∃ v, gget (playMoves gr ms) x y = some v ∧ validCell v := by
  unfold fill at hfill
  rw [rect_gwidth hg hh, rect_gheight hg] at hfill
  have hres := fillGo_inv mc cs (zeroGrid g0) 0 (rect_zeroGrid hg) hcs
    (fillInv_zeroGrid hg) (countMines_zeroGrid w h g0)
  rw [hfill] at hres
  obtain ⟨hrect, hinv, hcount⟩ := hres
  have hplay := playMoves_valid ms gr hrect (allValid_of_fillInv hinv)
  intro x y hx hy
  exact hplay.2 x y hx hy

/-- Claim C6 counterexample: the claim states that if either requested
dimension is at most 6, both dimensions are clamped to the default 9; the
code clamps each dimension independently, so the request (5, 10) — whose
width 5 is at most 6 — returns (9, 10) and not (9, 9). -/
theorem get_valid_size_mixed_case :
    (5 : Nat) ≤ 6 ∧ get_valid_size 5 10 = (9, 10) ∧ get_valid_size 5 10 ≠ (9, 9) := by
  refine ⟨by decide, by decide, by decide⟩

/-- Claim C6 amended: the size validation clamps each dimension independently
— a requested dimension at most 6 becomes the default 9 while the other
dimension is unaffected, and a dimension above 6 is returned unchanged. -/
theorem get_valid_size_spec (width height : Nat) :
    ((width ≤ 6 → (get_valid_size width height).1 = 9) ∧
      (6 < width → (get_valid_size width height).1 = width)) ∧
    ((height ≤ 6 → (get_valid_size width height).2 = 9) ∧
      (6 < height → (get_valid_size width height).2 = height)) := by
  refine ⟨⟨fun hw => ?_, fun hw => ?_⟩, ⟨fun hh => ?_, fun hh => ?_⟩⟩
  · show (if 6 < width then width else 9) = 9
    rw [if_neg (by omega)]
  · show (if 6 < width then width else 9) = width
    rw [if_pos hw]
  · show (if 6 < height then height else 9) = 9
    rw [if_neg (by omega)]
  · show (if 6 < height then height else 9) = height
    rw [if_pos hh]

/-- Claim C7: applying the size validation and then the mine-count validation
never fails or panics — after get_valid_size both dimensions are at least 7,
so the clamp interval [2, width * height / 10] is never inverted, even for a
degenerate request such as a 1 by 1 grid — and the result lies in
[2, width * height / 10]: a count inside the range is returned unchanged, a
count below is snapped to the floor 2, and a count above is snapped to the
ceiling width * height / 10. -/
theorem valid_mine_count_safe (width height mine_count : Nat) :
    2 ≤ (get_valid_size width height).1 * (get_valid_size width height).2 / 10 ∧
    ∃ r, get_valid_mine_count (get_valid_size width height).1
        (get_valid_size width height).2 mine_count = some r ∧
      2 ≤ r ∧ r ≤ (get_valid_size width height).1 * (get_valid_size width height).2 / 10 ∧
      (2 ≤ mine_count →
        mine_count ≤ (get_valid_size width height).1 * (get_valid_size width height).2 / 10 →
        r = mine_count) ∧
      (mine_count < 2 → r = 2) ∧
      ((get_valid_size width height).1 * (get_valid_size width height).2 / 10 < mine_count →
        r = (get_valid_size width height).1 * (get_valid_size width height).2 / 10) := by
  have hw : 7 ≤ (get_valid_size width height).1 := by
    show 7 ≤ (if 6 < width then width else 9)
    split <;> omega
  have hh : 7 ≤ (get_valid_size width height).2 := by
    show 7 ≤ (if 6 < height then height else 9)
    split <;> omega
  have h49 : 49 ≤ (get_valid_size width height).1 * (get_valid_size width height).2 :=
    Nat.mul_le_mul hw hh
  have h2 : 2 ≤ (get_valid_size width height).1 * (get_valid_size width height).2 / 10 := by
    obtain ⟨n, hn⟩ : ∃ n,
        (get_valid_size width height).1 * (get_valid_size width height).2 = n := ⟨_, rfl⟩
    rw [hn] at h49 ⊢
    omega
  refine ⟨h2, ?_⟩
  unfold get_valid_mine_count rustClamp
  rw [if_pos h2]
  obtain ⟨n, hn⟩ : ∃ n,
      (get_valid_size width height).1 * (get_valid_size width height).2 / 10 = n := ⟨_, rfl⟩
  rw [hn] at h2 ⊢
  exact ⟨min (max mine_count 2) n, rfl, by omega, by omega,
    fun h1 h2b => by omega, fun h1 => by omega, fun h1 => by omega⟩

/-- Specification-side grid constructor, following the Grid Store contract
words: construction fails (InvalidDimension, here none) when a dimension is 0
or exceeds the configured maximum MAX_SIZE, and otherwise yields the all-zero
grid. It exists only to be compared with MineField::new. -/
def createSpec (width height : Nat) : Option Grid :=
  if width = 0 ∨ height = 0 ∨ MAX_SIZE < width ∨ MAX_SIZE < height then none
  else some (List.replicate height (List.replicate width 0))

/-- Claim C8 counterexample: at width = height = 100, above the configured
maximum 99, the claimed contract requires construction to fail, but
MineField::new performs no validation and returns a full 100 by 100 all-zero
grid with the given mine count stored unchanged. -/
theorem new_does_not_validate :
    createSpec 100 100 = none ∧
    (MineField.new 100 100 2).field = List.replicate 100 (List.replicate 100 0) ∧
    (MineField.new 100 100 2).mine_count = 2 := by
  refine ⟨by decide, rfl, rfl⟩

/-- Claim C8 amended: MineField::new never fails — for every width, height and
mine count it returns a rectangular width by height grid with every cell set
to hidden-empty-zero, and stores the mine count unchanged; the 1..99 bound on
the dimensions is enforced before construction by the input collaborator
get_input_vec2 (modelled by acceptedVec2), not by the constructor. -/
theorem mineField_new_total (width height mine_count : Nat) :
    Rect width height (MineField.new width height mine_count).field ∧
    (MineField.new width height mine_count).mine_count = mine_count ∧
    (∀ x y, x < width → y < height →
      gget (MineField.new width height mine_count).field x y = some UNREVEALED_EMPTY) ∧
    (acceptedVec2 width height MAX_SIZE MAX_SIZE →
      0 < width ∧ width ≤ 99 ∧ 0 < height ∧ height ≤ 99) := by
  refine ⟨⟨by simp [MineField.new], ?_⟩, rfl, ?_, ?_⟩
  · intro row hrow
    simp only [MineField.new, List.mem_replicate] at hrow
    rw [hrow.2]
    simp
  · intro x y hx hy
    unfold MineField.new gget
    simp only
    rw [List.getElem?_replicate, if_pos hy]
    simp only
    rw [List.getElem?_replicate, if_pos hx]
    rfl
  · intro hacc
    obtain ⟨h1, h2, h3, h4⟩ := hacc
    refine ⟨h1, ?_, h3, ?_⟩
    · simpa [MAX_SIZE] using h2
    · simpa [MAX_SIZE] using h4

/-- Witness for claim C1 at the concrete board 7 by 7 with 2 mines placed by
the draws (0,0) and (3,3). -/
theorem fill_mine_count_witness :
    countMineTags 7 7
      (fill (List.replicate 7 (List.replicate 7 (0 : Int))) 2 [(0, 0), (3, 3)]).1 = 2 :=
  fill_mine_count 7 7 2 (List.replicate 7 (List.replicate 7 (0 : Int))) [(0, 0), (3, 3)]
    (fill (List.replicate 7 (List.replicate 7 (0 : Int))) 2 [(0, 0), (3, 3)]).1
    ⟨by decide, by decide⟩ (by decide) (by decide) (by decide)

/-- Witness for claim C2 at the same concrete board, checked at cell (1, 1). -/
theorem fill_adjacent_counts_witness :
    ∃ v, gget (fill (List.replicate 7 (List.replicate 7 (0 : Int))) 2 [(0, 0), (3, 3)]).1 1 1 =
        some v ∧
      v.natAbs = adjMines 7 7
        (fill (List.replicate 7 (List.replicate 7 (0 : Int))) 2 [(0, 0), (3, 3)]).1 1 1 :=
  fill_adjacent_counts 7 7 2 (List.replicate 7 (List.replicate 7 (0 : Int))) [(0, 0), (3, 3)]
    (fill (List.replicate 7 (List.replicate 7 (0 : Int))) 2 [(0, 0), (3, 3)]).1
    ⟨by decide, by decide⟩ (by decide) (by decide) (by decide) 1 1
    (by decide) (by decide) (by decide)

/-- Witness for claim C3 on the 1 by 1 zero grid: fuels 2 and 9 agree and give
the reveal result. -/
theorem reveal_fuel_independent_witness :
    revealF 2 [[0]] 0 0 = revealF 9 [[0]] 0 0 ∧ revealF 2 [[0]] 0 0 = reveal [[0]] 0 0 :=
  reveal_fuel_independent 1 1 2 9 [[0]] 0 0 (by decide) (by decide) (by decide)
    (by decide) (by decide)

/-- Witness for claim C4 on a 1 by 1 grid holding a hidden mine. -/
theorem reveal_mine_over_witness :
    reveal [[UNREVEALED_MINE]] 0 0 = Except.ok ([[REVEALED_MINE]], true) ∧
    stepGame (GameState.over [[REVEALED_MINE]]) (0, 0) = GameState.over [[REVEALED_MINE]] := by
  have h := reveal_mine_over [[UNREVEALED_MINE]] 0 0 (by decide)
  exact ⟨h.1.trans (by decide), h.2.2 [[REVEALED_MINE]] (0, 0)⟩

/-- Witness for claim C5: a second reveal after revealing the 1 by 1 zero grid
is the identity, and revealing an already revealed numbered cell is a no-op. -/
theorem reveal_idempotent_witness :
    reveal [[REVEALED_EMPTY]] 0 0 = Except.ok ([[REVEALED_EMPTY]], false) ∧
    reveal [[(3 : Int)]] 0 0 = Except.ok ([[(3 : Int)]], false) := by
  constructor
  · exact (reveal_idempotent [[(0 : Int)]] 0 0).1 [[REVEALED_EMPTY]] false (by decide)
  · exact (reveal_idempotent [[(3 : Int)]] 0 0).2 3 (by decide) (by decide)

/-- Witness for the amended claim C6 at the mixed request (5, 10). -/
theorem get_valid_size_spec_witness :
    (get_valid_size 5 10).1 = 9 ∧ (get_valid_size 5 10).2 = 10 :=
  ⟨(get_valid_size_spec 5 10).1.1 (by decide), (get_valid_size_spec 5 10).2.2 (by decide)⟩

/-- Witness for claim C7 at the degenerate request of a 1 by 1 grid with mine
count 0: the sizes are clamped to 9 by 9 first, so the clamp succeeds and
snaps the count to the floor 2. -/
theorem valid_mine_count_safe_witness :
    2 ≤ (get_valid_size 1 1).1 * (get_valid_size 1 1).2 / 10 ∧
    get_valid_mine_count (get_valid_size 1 1).1 (get_valid_size 1 1).2 0 = some 2 := by
  obtain ⟨h2, r, hr, hge, hle, hin, hlo, hhi⟩ := valid_mine_count_safe 1 1 0
  refine ⟨h2, ?_⟩
  rw [hr, hlo (by decide)]

/-- Witness for the amended claim C8 at a 3 by 3 construction request. -/
theorem mineField_new_total_witness :
    Rect 3 3 (MineField.new 3 3 1).field ∧
    gget (MineField.new 3 3 1).field 2 2 = some UNREVEALED_EMPTY ∧
    (0 < 3 ∧ 3 ≤ 99 ∧ 0 < 3 ∧ 3 ≤ 99) := by
  have h := mineField_new_total 3 3 1
  exact ⟨h.1, h.2.2.1 2 2 (by decide) (by decide), h.2.2.2 (by decide)⟩

/-- Witness for claim C9 on a 1 by 1 grid: the in-bounds reveal succeeds and
the out-of-bounds coordinate (1, 0) fails with OutOfBounds. -/
theorem reveal_bounds_witness :
    (∃ g2 r, reveal [[(5 : Int)]] 0 0 = Except.ok (g2, r) ∧ Rect 1 1 g2) ∧
    reveal [[(5 : Int)]] 1 0 = Except.error GridError.OutOfBounds :=
  ⟨(reveal_bounds 1 1 [[(5 : Int)]] 0 0 (by decide)).1 (by decide) (by decide),
    (reveal_bounds 1 1 [[(5 : Int)]] 1 0 (by decide)).2 (by decide)⟩

/-- Witness for claim C10 on the filled 7 by 7 board after revealing (1, 1). -/
theorem cell_encoding_valid_witness :
    ∃ v, gget (playMoves
        (fill (List.replicate 7 (List.replicate 7 (0 : Int))) 2 [(0, 0), (3, 3)]).1
        [(1, 1)]) 1 1 = some v ∧ validCell v :=
  cell_encoding_valid 7 7 2 (List.replicate 7 (List.replicate 7 (0 : Int)))
    (fill (List.replicate 7 (List.replicate 7 (0 : Int))) 2 [(0, 0), (3, 3)]).1
    [(0, 0), (3, 3)] [(1, 1)] (by decide) (by decide) (by decide) (by decide)
    (by decide) (by decide) 1 1 (by decide) (by decide)
